import Mathlib

/-!
Verification of the QAM MI/GMI estimator (`qam_gmi_mex.c`).

The file shallowly embeds the computational core of the program:

* `symbol_energy`  — mean squared magnitude of the constellation points;
* `insert_zero`    — bit-subset indexer: inserts a zero bit at position `k`;
* `qam_eval_mi`    — AWGN mutual information via 2-D Gauss-Hermite quadrature;
* `qam_eval_gmi`   — bit-wise (BICM) generalized mutual information;
* `mexFunction`    — the per-SNR driver loop (marshaling is out of scope).

Doubles are modelled as real numbers, `double complex` as `ℂ`, and the
C `unsigned int` bit manipulations as `ℕ` (all quantities in the program's
domain of use stay far below `2^32`, so no wraparound occurs).
-/

open Finset

/-- Number of Gauss-Hermite nodes (`#define N_GH 10`). -/
def N_GH : ℕ := 10

/-- Gauss-Hermite abscissas (`const double x[N_GH]`). -/
noncomputable def x_GH (l : ℕ) : ℝ :=
  [-3.436159118837737603327,
   -2.532731674232789796409,
   -1.756683649299881773451,
   -1.036610829789513654178,
   -0.3429013272237046087892,
   0.3429013272237046087892,
   1.036610829789513654178,
   1.756683649299881773451,
   2.532731674232789796409,
   3.436159118837737603327].getD l 0

/-- Gauss-Hermite weights (`const double w[N_GH]`). -/
noncomputable def w_GH (l : ℕ) : ℝ :=
  [7.64043285523262062916e-6,
   0.001343645746781232692202,
   0.0338743944554810631362,
   0.2401386110823146864165,
   0.6108626337353257987836,
   0.6108626337353257987836,
   0.2401386110823146864165,
   0.03387439445548106313617,
   0.001343645746781232692202,
   7.64043285523262062916e-6].getD l 0

/-- The helper `insert_zero(i, k, nb)`: inserts a zero bit at position `k`
of `i` (C source lines 111-120, translated operation for operation). -/
def insert_zero (i k nb : ℕ) : ℕ :=
  let left := (i <<< 1) &&& (((1 <<< (nb - k)) - 1) <<< (k + 1))
  let right := i &&& ((1 <<< k) - 1)
  left ||| right

/-- The helper `symbol_energy(C, M)`: mean squared magnitude of the
constellation (C source lines 96-108). -/
noncomputable def symbol_energy (C : ℕ → ℂ) (M : ℕ) : ℝ :=
  (∑ i ∈ range M, Complex.abs (C i) ^ 2) / M

/-- The summand appearing in all three quadrature inner loops:
`exp(-(pow(cabs(d),2.0) - 2*s*creal((x[l1]+I*x[l2])*d))/pow(s,2.0))`
where `d` is the difference of two constellation points. -/
noncomputable def gh_exp_term (s : ℝ) (l1 l2 : ℕ) (d : ℂ) : ℝ :=
  Real.exp (-(Complex.abs d ^ 2 -
      2 * s * (((x_GH l1 : ℂ) + Complex.I * (x_GH l2 : ℂ)) * d).re) / s ^ 2)

/-- The inner sum `tmp` of `qam_eval_mi` (C source lines 138-145). -/
noncomputable def qam_mi_T (C : ℕ → ℂ) (M : ℕ) (s : ℝ) (i l1 l2 : ℕ) : ℝ :=
  ∑ j ∈ range M, gh_exp_term s l1 l2 (C j - C i)

/-- The estimator `qam_eval_mi(C, M, s)` (C source lines 124-157). -/
noncomputable def qam_eval_mi (C : ℕ → ℂ) (M : ℕ) (s : ℝ) : ℝ :=
  (-(∑ i ∈ range M, ∑ l1 ∈ range N_GH, ∑ l2 ∈ range N_GH,
      w_GH l1 * w_GH l2 * Real.logb 2 (qam_mi_T C M s i l1 l2))) /
    (M * Real.pi) + Real.logb 2 M

/-- The bit width `const int m = log2(M)` computed by `qam_eval_gmi`
(C source line 162): `log2` of an `int`, truncated to an `int`. -/
def gmi_m (M : ℕ) : ℕ := Nat.log2 M

/-- Numerator `tmp_num` of the GMI logarithm (C source lines 190-194). -/
noncomputable def gmi_num (C : ℕ → ℂ) (M : ℕ) (s : ℝ) (bi l1 l2 : ℕ) : ℝ :=
  ∑ j ∈ range M, gh_exp_term s l1 l2 (C bi - C j)

/-- Denominator `tmp_den` of the GMI logarithm (C source lines 197-202). -/
noncomputable def gmi_den (C : ℕ → ℂ) (M : ℕ) (s : ℝ) (m k b bi l1 l2 : ℕ) : ℝ :=
  ∑ j ∈ range (M / 2), gh_exp_term s l1 l2 (C bi - C (insert_zero j k m + (b <<< k)))

/-- The estimator `qam_eval_gmi(C, M, s)` (C source lines 160-217). -/
noncomputable def qam_eval_gmi (C : ℕ → ℂ) (M : ℕ) (s : ℝ) : ℝ :=
  (-(∑ k ∈ range (gmi_m M), ∑ b ∈ range 2, ∑ i ∈ range (M / 2),
      ∑ l1 ∈ range N_GH, ∑ l2 ∈ range N_GH,
      w_GH l1 * w_GH l2 *
        Real.logb 2
          (gmi_num C M s (insert_zero i k (gmi_m M) + (b <<< k)) l1 l2 /
            gmi_den C M s (gmi_m M) k b
              (insert_zero i k (gmi_m M) + (b <<< k)) l1 l2))) /
    (M * Real.pi) + (gmi_m M : ℝ)

/-- The driver loop of `mexFunction` (C source lines 83-92): compute the
symbol energy once, then for every SNR value derive
`sigma = sqrt(Es) * pow(10, -snr[i]/20)` and evaluate both estimators.
Argument marshaling and shape checks of the MEX gateway are out of scope. -/
noncomputable def mexFunction (C : ℕ → ℂ) (M : ℕ) (snr : List ℝ) :
    List ℝ × List ℝ :=
  let Es := symbol_energy C M
  (snr.map fun v => qam_eval_mi C M (Real.sqrt Es * (10 : ℝ) ^ (-v / 20)),
   snr.map fun v => qam_eval_gmi C M (Real.sqrt Es * (10 : ℝ) ^ (-v / 20)))

/-! ### Bit manipulation lemmas for `insert_zero` -/

lemma land_two_pow_sub_one (x n : ℕ) : x &&& (2 ^ n - 1) = x % 2 ^ n := by
  apply Nat.eq_of_testBit_eq
  intro i
  simp [Nat.testBit_land, Nat.testBit_two_pow_sub_one, Nat.testBit_mod_two_pow,
    Bool.and_comm]

lemma testBit_two_pow_mul (s y j : ℕ) :
    (2 ^ s * y).testBit j = if j < s then false else y.testBit (j - s) := by
  have h := Nat.testBit_mul_pow_two_add y (Nat.pos_pow_of_pos s (by norm_num) :
    0 < 2 ^ s) j
  simpa using h

lemma land_mask_shift (x a s : ℕ) :
    x &&& ((2 ^ a - 1) * 2 ^ s) = 2 ^ s * (x / 2 ^ s % 2 ^ a) := by
  apply Nat.eq_of_testBit_eq
  intro i
  rw [Nat.testBit_land, testBit_two_pow_mul, ← Nat.shiftLeft_eq,
    Nat.testBit_shiftLeft]
  by_cases hi : i < s
  · simp [hi, Nat.not_le.mpr hi]
  · have hs : s ≤ i := Nat.not_lt.mp hi
    rw [if_neg hi]
    rw [Nat.testBit_mod_two_pow, ← Nat.shiftRight_eq_div_pow,
      Nat.testBit_shiftRight]
    have : s + (i - s) = i := by omega
    rw [this]
    simp [hs, Bool.and_comm]

lemma two_pow_mul_lor_add (s q r : ℕ) (hr : r < 2 ^ s) :
    (2 ^ s * q) ||| r = 2 ^ s * q + r := by
  apply Nat.eq_of_testBit_eq
  intro j
  rw [Nat.testBit_lor, testBit_two_pow_mul,
    Nat.testBit_mul_pow_two_add q hr j]
  by_cases hj : j < s
  · simp [hj]
  · have : r < 2 ^ j := lt_of_lt_of_le hr (Nat.pow_le_pow_right (by norm_num)
      (Nat.not_lt.mp hj))
    simp [hj, Nat.testBit_eq_false_of_lt this]

/-- Arithmetic characterization of `insert_zero`: for in-range arguments it
really does insert a zero bit at position `k`. -/
lemma insert_zero_eq (i k m : ℕ) (hk : k < m) (hi : i < 2 ^ (m - 1)) :
    insert_zero i k m = i % 2 ^ k + 2 ^ (k + 1) * (i / 2 ^ k) := by
  unfold insert_zero
  simp only [Nat.shiftLeft_eq, one_mul]
  rw [land_mask_shift, land_two_pow_sub_one]
  have hdiv : i * 2 ^ 1 / 2 ^ (k + 1) = i / 2 ^ k := by
    rw [pow_one, pow_succ]
    exact Nat.mul_div_mul_right i (2 ^ k) (by norm_num)
  rw [hdiv]
  have hsmall : i / 2 ^ k < 2 ^ (m - k) := by
    have e : (2:ℕ) ^ k * 2 ^ (m - 1 - k) = 2 ^ (m - 1) := by
      rw [← pow_add]; congr 1; omega
    have h1 : i / 2 ^ k < 2 ^ (m - 1 - k) :=
      Nat.div_lt_of_lt_mul (by omega)
    exact lt_of_lt_of_le h1 (Nat.pow_le_pow_right (by norm_num) (by omega))
  rw [Nat.mod_eq_of_lt hsmall]
  have hr : i % 2 ^ k < 2 ^ (k + 1) := by
    have h1 : i % 2 ^ k < 2 ^ k := Nat.mod_lt i (by positivity)
    have h2 : (2:ℕ) ^ k ≤ 2 ^ (k + 1) := Nat.pow_le_pow_right (by norm_num) (by omega)
    omega
  rw [two_pow_mul_lor_add _ _ _ hr]
  omega

lemma insert_zero_lt (i k m : ℕ) (hk : k < m) (hi : i < 2 ^ (m - 1)) :
    insert_zero i k m < 2 ^ m := by
  rw [insert_zero_eq i k m hk hi]
  have h1 : i % 2 ^ k < 2 ^ k := Nat.mod_lt i (by positivity)
  have h2 : i / 2 ^ k < 2 ^ (m - 1 - k) := by
    apply Nat.div_lt_of_lt_mul
    have e : (2:ℕ) ^ k * 2 ^ (m - 1 - k) = 2 ^ (m - 1) := by
      rw [← pow_add]; congr 1; omega
    omega
  have h3 : 2 ^ (k + 1) * (i / 2 ^ k + 1) ≤ 2 ^ (k + 1) * 2 ^ (m - 1 - k) :=
    Nat.mul_le_mul_left _ (by omega)
  rw [Nat.mul_add, Nat.mul_one] at h3
  have h4 : 2 ^ (k + 1) * 2 ^ (m - 1 - k) = 2 ^ m := by
    rw [← pow_add]; congr 1; omega
  have h5 : (2:ℕ) ^ k ≤ 2 ^ (k + 1) := Nat.pow_le_pow_right (by norm_num) (by omega)
  omega

lemma insert_zero_testBit (i k m : ℕ) (hk : k < m) (hi : i < 2 ^ (m - 1)) :
    (insert_zero i k m).testBit k = false := by
  rw [insert_zero_eq i k m hk hi, Nat.testBit_to_div_mod]
  have hpos : 0 < 2 ^ k := Nat.pos_pow_of_pos k (by norm_num)
  have hdiv : (i % 2 ^ k + 2 ^ (k + 1) * (i / 2 ^ k)) / 2 ^ k
      = 2 * (i / 2 ^ k) := by
    rw [pow_succ]
    rw [show (2:ℕ) ^ k * 2 * (i / 2 ^ k) = 2 ^ k * (2 * (i / 2 ^ k)) by ring]
    rw [Nat.add_mul_div_left _ _ hpos]
    rw [Nat.div_eq_of_lt (Nat.mod_lt i hpos)]
    omega
  rw [hdiv]
  simp [Nat.mul_mod_right]

lemma insert_zero_inj (k m : ℕ) (hk : k < m) :
    ∀ i1 < 2 ^ (m - 1), ∀ i2 < 2 ^ (m - 1),
      insert_zero i1 k m = insert_zero i2 k m → i1 = i2 := by
  intro i1 h1 i2 h2 heq
  rw [insert_zero_eq i1 k m hk h1, insert_zero_eq i2 k m hk h2] at heq
  have hpos : 0 < 2 ^ (k + 1) := Nat.pos_pow_of_pos _ (by norm_num)
  have hk2 : 2 ^ k < 2 ^ (k + 1) := Nat.pow_lt_pow_right (by norm_num) (by omega)
  have hm1 : i1 % 2 ^ k < 2 ^ k := Nat.mod_lt i1 (by positivity)
  have hm2 : i2 % 2 ^ k < 2 ^ k := Nat.mod_lt i2 (by positivity)
  have hmod := congrArg (· % 2 ^ (k + 1)) heq
  simp only [Nat.add_mul_mod_self_left] at hmod
  have e1 : (i1 % 2 ^ k) % 2 ^ (k + 1) = i1 % 2 ^ k :=
    Nat.mod_eq_of_lt (by omega)
  have e2 : (i2 % 2 ^ k) % 2 ^ (k + 1) = i2 % 2 ^ k :=
    Nat.mod_eq_of_lt (by omega)
  rw [e1, e2] at hmod
  have hdivq := congrArg (· / 2 ^ (k + 1)) heq
  simp only [Nat.add_mul_div_left _ _ hpos] at hdivq
  have d1 : (i1 % 2 ^ k) / 2 ^ (k + 1) = 0 := Nat.div_eq_of_lt (by omega)
  have d2 : (i2 % 2 ^ k) / 2 ^ (k + 1) = 0 := Nat.div_eq_of_lt (by omega)
  rw [d1, d2] at hdivq
  simp only [Nat.zero_add] at hdivq
  have e1 : i1 = 2 ^ k * (i1 / 2 ^ k) + i1 % 2 ^ k := (Nat.div_add_mod i1 _).symm
  have e2 : i2 = 2 ^ k * (i2 / 2 ^ k) + i2 % 2 ^ k := (Nat.div_add_mod i2 _).symm
  rw [e1, e2, hmod, hdivq]

lemma remove_insert_lt (k m v : ℕ) (hk : k < m) (hv : v < 2 ^ m) :
    v % 2 ^ k + 2 ^ k * (v / 2 ^ (k + 1)) < 2 ^ (m - 1) := by
  have hpk : 0 < 2 ^ k := Nat.pos_pow_of_pos k (by norm_num)
  have h1 : v % 2 ^ k < 2 ^ k := Nat.mod_lt v hpk
  have h2 : v / 2 ^ (k + 1) < 2 ^ (m - k - 1) := by
    apply Nat.div_lt_of_lt_mul
    have e : (2:ℕ) ^ (k + 1) * 2 ^ (m - k - 1) = 2 ^ m := by
      rw [← pow_add]; congr 1; omega
    omega
  have h3 : 2 ^ k * (v / 2 ^ (k + 1) + 1) ≤ 2 ^ k * 2 ^ (m - k - 1) :=
    Nat.mul_le_mul_left _ (by omega)
  rw [Nat.mul_add, Nat.mul_one] at h3
  have h4 : 2 ^ k * 2 ^ (m - k - 1) = 2 ^ (m - 1) := by
    rw [← pow_add]; congr 1; omega
  omega

lemma insert_zero_surj (k m v : ℕ) (hk : k < m) (hv : v < 2 ^ m)
    (hbit : v.testBit k = false) :
    ∃ i < 2 ^ (m - 1), insert_zero i k m = v := by
  have hpk : 0 < 2 ^ k := Nat.pos_pow_of_pos k (by norm_num)
  refine ⟨v % 2 ^ k + 2 ^ k * (v / 2 ^ (k + 1)),
    remove_insert_lt k m v hk hv, ?_⟩
  rw [insert_zero_eq _ k m hk (remove_insert_lt k m v hk hv)]
  have him : (v % 2 ^ k + 2 ^ k * (v / 2 ^ (k + 1))) % 2 ^ k = v % 2 ^ k := by
    rw [Nat.add_mul_mod_self_left]
    exact Nat.mod_mod_of_dvd v (dvd_refl _)
  have hid : (v % 2 ^ k + 2 ^ k * (v / 2 ^ (k + 1))) / 2 ^ k
      = v / 2 ^ (k + 1) := by
    rw [Nat.add_mul_div_left _ _ hpk,
      Nat.div_eq_of_lt (Nat.mod_lt v hpk)]
    omega
  rw [him, hid]
  have hbit2 : v / 2 ^ k % 2 = 0 := by
    rw [Nat.testBit_to_div_mod] at hbit
    simpa using hbit
  have hmod : v % 2 ^ (k + 1) = v % 2 ^ k := by
    rw [Nat.mod_pow_succ, hbit2]
    simp
  have hvd := Nat.div_add_mod v (2 ^ (k + 1))
  omega

/-! ### Spec-side formulas (written from the spec text, for refinement claims) -/

/-- Formula for MI stated by the spec (§4.4): for every symbol `i` and node
pair `(l1,l2)`, `T(i,l1,l2) = Σⱼ exp(−(|Cⱼ−Cᵢ|² − 2σ·Re[(x_l1+i·x_l2)(Cⱼ−Cᵢ)])/σ²)`;
accumulate `−w_l1·w_l2·log2 T`, divide by `M·π` and add `log2 M`. -/
noncomputable def mi_spec_formula (C : ℕ → ℂ) (M : ℕ) (s : ℝ) : ℝ :=
  (-(∑ i ∈ range M, ∑ l1 ∈ range 10, ∑ l2 ∈ range 10,
      w_GH l1 * w_GH l2 *
        Real.logb 2 (∑ j ∈ range M,
          Real.exp (-(Complex.abs (C j - C i) ^ 2 -
              2 * s * (((x_GH l1 : ℂ) + Complex.I * (x_GH l2 : ℂ)) *
                (C j - C i)).re) / s ^ 2)))) /
    (M * Real.pi) + Real.logb 2 M

/-- Formula for GMI stated by the spec (§4.5): for each bit position `k`,
bit value `b`, compact index `i < M/2` and node pair, with
`bi = insert_zero(i,k,m) + (b<<k)`, subtract `w·w·log2(num/den)` where `num`
sums over all `M` symbols and `den` over the `M/2` symbols whose bit `k`
equals `b`; finally divide by `M·π` and add `m` (here `M = 2^m`). -/
noncomputable def gmi_spec_formula (C : ℕ → ℂ) (m : ℕ) (s : ℝ) : ℝ :=
  (-(∑ k ∈ range m, ∑ b ∈ range 2, ∑ i ∈ range (2 ^ m / 2),
      ∑ l1 ∈ range 10, ∑ l2 ∈ range 10,
      w_GH l1 * w_GH l2 *
        Real.logb 2
          ((∑ j ∈ range (2 ^ m),
              Real.exp (-(Complex.abs
                    (C (insert_zero i k m + (b <<< k)) - C j) ^ 2 -
                  2 * s * (((x_GH l1 : ℂ) + Complex.I * (x_GH l2 : ℂ)) *
                    (C (insert_zero i k m + (b <<< k)) - C j)).re) / s ^ 2)) /
            (∑ j ∈ range (2 ^ m / 2),
              Real.exp (-(Complex.abs
                    (C (insert_zero i k m + (b <<< k)) -
                      C (insert_zero j k m + (b <<< k))) ^ 2 -
                  2 * s * (((x_GH l1 : ℂ) + Complex.I * (x_GH l2 : ℂ)) *
                    (C (insert_zero i k m + (b <<< k)) -
                      C (insert_zero j k m + (b <<< k)))).re) / s ^ 2))))) /
    ((2 ^ m : ℕ) * Real.pi) + m

/-! ### Basic facts about the quadrature terms -/

lemma gh_exp_term_pos (s : ℝ) (l1 l2 : ℕ) (d : ℂ) : 0 < gh_exp_term s l1 l2 d := by
  rw [gh_exp_term]; exact Real.exp_pos _

lemma gh_exp_term_zero (s : ℝ) (l1 l2 : ℕ) : gh_exp_term s l1 l2 0 = 1 := by
  simp [gh_exp_term]

lemma w_GH_nonneg (l : ℕ) : 0 ≤ w_GH l := by
  rcases l with _|_|_|_|_|_|_|_|_|_|l <;> norm_num [w_GH]

lemma w_GH_pos (l : ℕ) (hl : l < 10) : 0 < w_GH l := by
  interval_cases l <;> norm_num [w_GH]

/-! ### Claim theorems -/

/-- C3: for `k < m` the map `i ↦ insert_zero i k m` restricted to
`[0, 2^(m-1))` is a bijection onto exactly the `m`-bit values whose bit `k`
is zero (no repeats, no omissions), and it equals the formula that inserts a
zero bit at position `k` of `i`'s binary form. -/
theorem insert_zero_bijection (m k : ℕ) (hm : 1 ≤ m) (hk : k < m) :
    ((range (2 ^ (m - 1))).image fun i => insert_zero i k m) =
      (range (2 ^ m)).filter (fun v => v.testBit k = false) ∧
    (∀ i1 < 2 ^ (m - 1), ∀ i2 < 2 ^ (m - 1),
      insert_zero i1 k m = insert_zero i2 k m → i1 = i2) ∧
    (∀ i < 2 ^ (m - 1),
      insert_zero i k m = i % 2 ^ k + 2 ^ (k + 1) * (i / 2 ^ k)) ∧
    (∀ i, insert_zero i k m =
      (((i <<< 1) &&& (((1 <<< (m - k)) - 1) <<< (k + 1))) |||
        (i &&& ((1 <<< k) - 1)))) := by
  refine ⟨?_, insert_zero_inj k m hk, fun i hi => insert_zero_eq i k m hk hi,
    fun i => rfl⟩
  ext v
  simp only [Finset.mem_image, Finset.mem_filter, Finset.mem_range]
  constructor
  · rintro ⟨i, hi, rfl⟩
    exact ⟨insert_zero_lt i k m hk hi, insert_zero_testBit i k m hk hi⟩
  · rintro ⟨hv, hbit⟩
    obtain ⟨i, hi, hiz⟩ := insert_zero_surj k m v hk hv hbit
    exact ⟨i, hi, hiz⟩

theorem insert_zero_bijection_witness :
    (1 ≤ 2 ∧ 0 < 2) ∧
    (((range (2 ^ (2 - 1))).image fun i => insert_zero i 0 2) =
      (range (2 ^ 2)).filter (fun v => v.testBit 0 = false) ∧
    (∀ i1 < 2 ^ (2 - 1), ∀ i2 < 2 ^ (2 - 1),
      insert_zero i1 0 2 = insert_zero i2 0 2 → i1 = i2) ∧
    (∀ i < 2 ^ (2 - 1),
      insert_zero i 0 2 = i % 2 ^ 0 + 2 ^ (0 + 1) * (i / 2 ^ 0)) ∧
    (∀ i, insert_zero i 0 2 =
      (((i <<< 1) &&& (((1 <<< (2 - 0)) - 1) <<< (0 + 1))) |||
        (i &&& ((1 <<< 0) - 1))))) :=
  ⟨⟨by decide, by decide⟩, insert_zero_bijection 2 0 (by decide) (by decide)⟩

/-- C9: `symbol_energy` returns `(1/M)·Σ|Cᵢ|²`, a non-negative real. -/
theorem symbol_energy_spec (C : ℕ → ℂ) (M : ℕ) (hM : 1 ≤ M) :
    symbol_energy C M = (1 / M : ℝ) * ∑ i ∈ range M, Complex.abs (C i) ^ 2 ∧
    0 ≤ symbol_energy C M := by
  constructor
  · rw [symbol_energy]; ring
  · rw [symbol_energy]
    positivity

theorem symbol_energy_spec_witness :
    1 ≤ 1 ∧
    (symbol_energy (fun _ => 0) 1 =
      1 / ((1 : ℕ) : ℝ) * ∑ _i ∈ range 1, Complex.abs (0 : ℂ) ^ 2 ∧
    0 ≤ symbol_energy (fun _ => 0) 1) :=
  ⟨le_refl 1, symbol_energy_spec (fun _ => 0) 1 (le_refl 1)⟩

/-- C8: the inner sum `T(i,l1,l2)` of `qam_eval_mi` is at least `1` (the
`j = i` term contributes `exp 0 = 1` and every term is positive), so the
argument of `log2` is strictly positive. -/
theorem qam_mi_T_ge_one (C : ℕ → ℂ) (M : ℕ) (s : ℝ) (i l1 l2 : ℕ)
    (hi : i < M) (hs : 0 < s) :
    1 ≤ qam_mi_T C M s i l1 l2 ∧ 0 < qam_mi_T C M s i l1 l2 := by
  have key : 1 ≤ qam_mi_T C M s i l1 l2 := by
    rw [qam_mi_T]
    calc (1 : ℝ) = gh_exp_term s l1 l2 (C i - C i) := by
          rw [sub_self, gh_exp_term_zero]
      _ ≤ ∑ j ∈ range M, gh_exp_term s l1 l2 (C j - C i) :=
          Finset.single_le_sum (f := fun j => gh_exp_term s l1 l2 (C j - C i))
            (fun j _ => le_of_lt (gh_exp_term_pos s l1 l2 _))
            (Finset.mem_range.mpr hi)
  exact ⟨key, lt_of_lt_of_le one_pos key⟩

theorem qam_mi_T_ge_one_witness :
    ((0 : ℕ) < 1 ∧ (0 : ℝ) < 1) ∧
    (1 ≤ qam_mi_T (fun _ => 0) 1 1 0 0 0 ∧ 0 < qam_mi_T (fun _ => 0) 1 1 0 0 0) :=
  ⟨⟨by decide, one_pos⟩, qam_mi_T_ge_one (fun _ => 0) 1 1 0 0 0 (by decide) one_pos⟩

/-! ### GMI numerator/denominator facts (claim C10) -/

lemma two_pow_div_two (m : ℕ) (hm : 1 ≤ m) : 2 ^ m / 2 = 2 ^ (m - 1) := by
  have e : (2:ℕ) ^ m = 2 ^ (m - 1) * 2 := by
    rw [← pow_succ]; congr 1; omega
  omega

lemma insert_zero_add_lt (j k m b : ℕ) (hk : k < m) (hj : j < 2 ^ (m - 1))
    (hb : b < 2) : insert_zero j k m + (b <<< k) < 2 ^ m := by
  interval_cases b
  · simpa using insert_zero_lt j k m hk hj
  · rw [Nat.one_shiftLeft, insert_zero_eq j k m hk hj]
    have h1 : j % 2 ^ k < 2 ^ k := Nat.mod_lt j (by positivity)
    have h2 : j / 2 ^ k < 2 ^ (m - 1 - k) := by
      apply Nat.div_lt_of_lt_mul
      have e : (2:ℕ) ^ k * 2 ^ (m - 1 - k) = 2 ^ (m - 1) := by
        rw [← pow_add]; congr 1; omega
      omega
    have h3 : 2 ^ (k + 1) * (j / 2 ^ k + 1) ≤ 2 ^ (k + 1) * 2 ^ (m - 1 - k) :=
      Nat.mul_le_mul_left _ (by omega)
    rw [Nat.mul_add, Nat.mul_one] at h3
    have h4 : 2 ^ (k + 1) * 2 ^ (m - 1 - k) = 2 ^ m := by
      rw [← pow_add]; congr 1; omega
    have h5 : (2:ℕ) ^ (k + 1) = 2 ^ k * 2 := pow_succ 2 k
    omega

lemma gmi_den_le_num (C : ℕ → ℂ) (m k b bi l1 l2 : ℕ) (s : ℝ)
    (hm : 1 ≤ m) (hk : k < m) (hb : b < 2) :
    gmi_den C (2 ^ m) s m k b bi l1 l2 ≤ gmi_num C (2 ^ m) s bi l1 l2 := by
  rw [gmi_den, gmi_num, two_pow_div_two m hm]
  have hinj : ∀ x ∈ range (2 ^ (m - 1)), ∀ y ∈ range (2 ^ (m - 1)),
      insert_zero x k m + (b <<< k) = insert_zero y k m + (b <<< k) → x = y := by
    intro x hx y hy hxy
    exact insert_zero_inj k m hk x (mem_range.mp hx) y (mem_range.mp hy)
      (by omega)
  calc ∑ j ∈ range (2 ^ (m - 1)),
        gh_exp_term s l1 l2 (C bi - C (insert_zero j k m + (b <<< k)))
      = ∑ t ∈ (range (2 ^ (m - 1))).image
            (fun j => insert_zero j k m + (b <<< k)),
          gh_exp_term s l1 l2 (C bi - C t) :=
        (Finset.sum_image (f := fun t => gh_exp_term s l1 l2 (C bi - C t))
          hinj).symm
    _ ≤ ∑ t ∈ range (2 ^ m), gh_exp_term s l1 l2 (C bi - C t) := by
        apply Finset.sum_le_sum_of_subset_of_nonneg
        · intro t ht
          simp only [Finset.mem_image, Finset.mem_range] at ht ⊢
          obtain ⟨j, hj, rfl⟩ := ht
          exact insert_zero_add_lt j k m b hk hj hb
        · intro t _ _
          exact le_of_lt (gh_exp_term_pos s l1 l2 _)

lemma one_le_gmi_den (C : ℕ → ℂ) (m k b i l1 l2 : ℕ) (s : ℝ)
    (hm : 1 ≤ m) (hk : k < m) (hi : i < 2 ^ (m - 1)) :
    1 ≤ gmi_den C (2 ^ m) s m k b (insert_zero i k m + (b <<< k)) l1 l2 := by
  rw [gmi_den, two_pow_div_two m hm]
  calc (1:ℝ) = gh_exp_term s l1 l2
        (C (insert_zero i k m + (b <<< k)) -
          C (insert_zero i k m + (b <<< k))) := by
        rw [sub_self, gh_exp_term_zero]
    _ ≤ ∑ j ∈ range (2 ^ (m - 1)),
          gh_exp_term s l1 l2 (C (insert_zero i k m + (b <<< k)) -
            C (insert_zero j k m + (b <<< k))) :=
        Finset.single_le_sum
          (f := fun j => gh_exp_term s l1 l2
            (C (insert_zero i k m + (b <<< k)) -
              C (insert_zero j k m + (b <<< k))))
          (fun j _ => le_of_lt (gh_exp_term_pos s l1 l2 _))
          (Finset.mem_range.mpr hi)

/-- C10: in `qam_eval_gmi` the denominator enumerates a subset of the
numerator's symbols, the `bj = bi` term contributes `1`, hence
`num ≥ den ≥ 1 > 0`, the quotient is `≥ 1`, and each accumulated term
`-w·w·log2(num/den)` is `≤ 0`: no logarithm of a non-positive value and no
division by zero occurs for `σ > 0`. -/
theorem gmi_log_argument_safe (C : ℕ → ℂ) (M m k b i l1 l2 : ℕ) (s : ℝ)
    (hM : M = 2 ^ m) (hm : 1 ≤ m) (hk : k < m) (hb : b < 2) (hi : i < M / 2)
    (hl1 : l1 < N_GH) (hl2 : l2 < N_GH) (hs : 0 < s) :
    (∀ j < M / 2, insert_zero j k m + (b <<< k) < M) ∧
    1 ≤ gmi_den C M s m k b (insert_zero i k m + (b <<< k)) l1 l2 ∧
    gmi_den C M s m k b (insert_zero i k m + (b <<< k)) l1 l2 ≤
      gmi_num C M s (insert_zero i k m + (b <<< k)) l1 l2 ∧
    1 ≤ gmi_num C M s (insert_zero i k m + (b <<< k)) l1 l2 /
      gmi_den C M s m k b (insert_zero i k m + (b <<< k)) l1 l2 ∧
    0 ≤ w_GH l1 * w_GH l2 *
      Real.logb 2 (gmi_num C M s (insert_zero i k m + (b <<< k)) l1 l2 /
        gmi_den C M s m k b (insert_zero i k m + (b <<< k)) l1 l2) := by
  subst hM
  rw [two_pow_div_two m hm] at hi
  have hd1 : 1 ≤ gmi_den C (2 ^ m) s m k b
      (insert_zero i k m + (b <<< k)) l1 l2 :=
    one_le_gmi_den C m k b i l1 l2 s hm hk hi
  have hdn : gmi_den C (2 ^ m) s m k b
        (insert_zero i k m + (b <<< k)) l1 l2 ≤
      gmi_num C (2 ^ m) s (insert_zero i k m + (b <<< k)) l1 l2 :=
    gmi_den_le_num C m k b _ l1 l2 s hm hk hb
  have hq : 1 ≤ gmi_num C (2 ^ m) s (insert_zero i k m + (b <<< k)) l1 l2 /
      gmi_den C (2 ^ m) s m k b (insert_zero i k m + (b <<< k)) l1 l2 :=
    (one_le_div (by linarith)).mpr hdn
  refine ⟨?_, hd1, hdn, hq, ?_⟩
  · intro j hj
    rw [two_pow_div_two m hm] at hj
    exact insert_zero_add_lt j k m b hk hj hb
  · exact mul_nonneg (mul_nonneg (w_GH_nonneg l1) (w_GH_nonneg l2))
      (Real.logb_nonneg one_lt_two hq)

theorem gmi_log_argument_safe_witness :
    ((2:ℕ) = 2 ^ 1 ∧ 1 ≤ 1 ∧ 0 < 1 ∧ 0 < 2 ∧ 0 < 2 / 2 ∧
      0 < N_GH ∧ 0 < N_GH ∧ (0:ℝ) < 1) ∧
    ((∀ j < 2 / 2, insert_zero j 0 1 + (0 <<< 0) < 2) ∧
    (1:ℝ) ≤ gmi_den (fun _ => 0) 2 1 1 0 0 (insert_zero 0 0 1 + (0 <<< 0)) 0 0 ∧
    gmi_den (fun _ => 0) 2 1 1 0 0 (insert_zero 0 0 1 + (0 <<< 0)) 0 0 ≤
      gmi_num (fun _ => 0) 2 1 (insert_zero 0 0 1 + (0 <<< 0)) 0 0 ∧
    (1:ℝ) ≤ gmi_num (fun _ => 0) 2 1 (insert_zero 0 0 1 + (0 <<< 0)) 0 0 /
      gmi_den (fun _ => 0) 2 1 1 0 0 (insert_zero 0 0 1 + (0 <<< 0)) 0 0 ∧
    (0:ℝ) ≤ w_GH 0 * w_GH 0 *
      Real.logb 2 (gmi_num (fun _ => 0) 2 1 (insert_zero 0 0 1 + (0 <<< 0)) 0 0 /
        gmi_den (fun _ => 0) 2 1 1 0 0 (insert_zero 0 0 1 + (0 <<< 0)) 0 0)) :=
  ⟨⟨by decide, by decide, by decide, by decide, by decide, by decide, by decide,
      one_pos⟩,
    gmi_log_argument_safe (fun _ => 0) 2 1 0 0 0 0 0 1 (by decide) (by decide)
      (by decide) (by decide) (by decide) (by decide) (by decide) one_pos⟩

/-- C2: `qam_eval_mi` returns exactly the spec's formula: accumulate
`−w_l1·w_l2·log2 T(i,l1,l2)` over all `i, l1, l2` with
`T(i,l1,l2) = Σⱼ exp(−(|Cⱼ−Cᵢ|² − 2σ·Re[(x_l1+i·x_l2)(Cⱼ−Cᵢ)])/σ²)`,
divide by `M·π` and add `log2 M`; the `j = i` term of `T` equals `1`. -/
theorem qam_eval_mi_spec (C : ℕ → ℂ) (M : ℕ) (s : ℝ) (hM : 1 ≤ M)
    (hs : 0 < s) :
    qam_eval_mi C M s = mi_spec_formula C M s ∧
    ∀ i l1 l2 : ℕ,
      Real.exp (-(Complex.abs (C i - C i) ^ 2 -
          2 * s * (((x_GH l1 : ℂ) + Complex.I * (x_GH l2 : ℂ)) *
            (C i - C i)).re) / s ^ 2) = 1 := by
  constructor
  · rfl
  · intro i l1 l2
    simp

theorem qam_eval_mi_spec_witness :
    (1 ≤ 1 ∧ (0:ℝ) < 1) ∧
    (qam_eval_mi (fun _ => 0) 1 1 = mi_spec_formula (fun _ => 0) 1 1 ∧
    ∀ i l1 l2 : ℕ,
      Real.exp (-(Complex.abs ((0:ℂ) - 0) ^ 2 -
          2 * 1 * (((x_GH l1 : ℂ) + Complex.I * (x_GH l2 : ℂ)) *
            ((0:ℂ) - 0)).re) / (1:ℝ) ^ 2) = 1) :=
  ⟨⟨le_refl 1, one_pos⟩, qam_eval_mi_spec (fun _ => 0) 1 1 (le_refl 1) one_pos⟩

/-- C1: for `M = 2^m` a power of two, `qam_eval_gmi` returns exactly the
spec's formula: over each bit position `k < m`, bit value `b`, compact index
`i < M/2` and node pair, subtract `w·w·log2(num/den)` with
`bi = insert_zero(i,k,m)+(b<<k)`, `num` summing over all `M` symbols and
`den` over the `M/2` symbols whose bit `k` equals `b`; then divide by `M·π`
and add `m`. -/
theorem qam_eval_gmi_spec (C : ℕ → ℂ) (M m : ℕ) (s : ℝ) (hM : M = 2 ^ m)
    (hm : 1 ≤ m) (hs : 0 < s) :
    qam_eval_gmi C M s = gmi_spec_formula C m s := by
  subst hM
  have hm2 : gmi_m (2 ^ m) = m := Nat.log2_two_pow
  simp only [qam_eval_gmi, gmi_spec_formula, gmi_num, gmi_den, gh_exp_term,
    N_GH, hm2]

theorem qam_eval_gmi_spec_witness :
    ((2:ℕ) = 2 ^ 1 ∧ 1 ≤ 1 ∧ (0:ℝ) < 1) ∧
    qam_eval_gmi (fun _ => 0) 2 1 = gmi_spec_formula (fun _ => 0) 1 1 :=
  ⟨⟨by decide, le_refl 1, one_pos⟩,
    qam_eval_gmi_spec (fun _ => 0) 2 1 1 rfl (le_refl 1) one_pos⟩

/-! ### Driver facts (claims C5, C7) -/

lemma mexFunction_get (C : ℕ → ℂ) (M : ℕ) (snr : List ℝ) (i : ℕ) :
    (mexFunction C M snr).1[i]? = (snr[i]?).map
      (fun v => qam_eval_mi C M
        (Real.sqrt (symbol_energy C M) * (10 : ℝ) ^ (-v / 20))) ∧
    (mexFunction C M snr).2[i]? = (snr[i]?).map
      (fun v => qam_eval_gmi C M
        (Real.sqrt (symbol_energy C M) * (10 : ℝ) ^ (-v / 20))) := by
  constructor <;> simp [mexFunction, List.getElem?_map]

/-- C5: the driver computes `Es = symbol_energy C M` once and, for every SNR
entry `v` at index `i`, derives `σ = sqrt(Es)·10^(−v/20)` and stores
`qam_eval_mi C M σ` and `qam_eval_gmi C M σ` in output slot `i`. -/
theorem mexFunction_driver_spec (C : ℕ → ℂ) (M : ℕ) (snr : List ℝ) (i : ℕ)
    (v : ℝ) (hv : snr[i]? = some v) :
    (mexFunction C M snr).1[i]? =
      some (qam_eval_mi C M
        (Real.sqrt (symbol_energy C M) * (10 : ℝ) ^ (-v / 20))) ∧
    (mexFunction C M snr).2[i]? =
      some (qam_eval_gmi C M
        (Real.sqrt (symbol_energy C M) * (10 : ℝ) ^ (-v / 20))) := by
  obtain ⟨h1, h2⟩ := mexFunction_get C M snr i
  rw [h1, h2, hv]
  exact ⟨rfl, rfl⟩

theorem mexFunction_driver_spec_witness :
    ([(0:ℝ)][0]? = some 0) ∧
    ((mexFunction (fun _ => 0) 1 [0]).1[0]? =
      some (qam_eval_mi (fun _ => 0) 1
        (Real.sqrt (symbol_energy (fun _ => 0) 1) *
          (10 : ℝ) ^ (-(0:ℝ) / 20))) ∧
    (mexFunction (fun _ => 0) 1 [0]).2[0]? =
      some (qam_eval_gmi (fun _ => 0) 1
        (Real.sqrt (symbol_energy (fun _ => 0) 1) *
          (10 : ℝ) ^ (-(0:ℝ) / 20)))) :=
  ⟨rfl, mexFunction_driver_spec (fun _ => 0) 1 [0] 0 0 rfl⟩

/-- C7: the outputs at index `j` depend only on the shared immutable inputs
`(C, Es)` and the SNR entry at index `j`: two SNR lists agreeing at `j`
produce identical MI and GMI values at `j`, and each output slot `i` holds
the evaluation of input SNR `i` regardless of the other entries. -/
theorem mexFunction_snr_independence (C : ℕ → ℂ) (M : ℕ)
    (snr1 snr2 : List ℝ) (j : ℕ) (h : snr1[j]? = snr2[j]?) :
    (mexFunction C M snr1).1[j]? = (mexFunction C M snr2).1[j]? ∧
    (mexFunction C M snr1).2[j]? = (mexFunction C M snr2).2[j]? := by
  obtain ⟨a1, a2⟩ := mexFunction_get C M snr1 j
  obtain ⟨b1, b2⟩ := mexFunction_get C M snr2 j
  rw [a1, a2, b1, b2, h]
  exact ⟨rfl, rfl⟩

theorem mexFunction_snr_independence_witness :
    ([(1:ℝ), 2][1]? = [(3:ℝ), 2][1]?) ∧
    ((mexFunction (fun _ => 0) 1 [(1:ℝ), 2]).1[1]? =
      (mexFunction (fun _ => 0) 1 [(3:ℝ), 2]).1[1]? ∧
    (mexFunction (fun _ => 0) 1 [(1:ℝ), 2]).2[1]? =
      (mexFunction (fun _ => 0) 1 [(3:ℝ), 2]).2[1]?) :=
  ⟨rfl, mexFunction_snr_independence (fun _ => 0) 1 [(1:ℝ), 2] [(3:ℝ), 2] 1 rfl⟩

/-- C4 (code-bug evidence): the code performs no precondition validation.
`qam_eval_gmi` derives its bit width as `(int)log2(M)`, which silently
truncates when `M` is not a power of two: for `M = 3` it proceeds with
`m = 1`, covering only `2^1 = 2 < 3` of the symbols, instead of rejecting
the constellation size. -/
theorem gmi_m_truncates_non_power_of_two : gmi_m 3 = 1 ∧ 2 ^ gmi_m 3 < 3 := by
  have h : gmi_m 3 = 1 := by
    rw [gmi_m, Nat.log2_eq_log_two]
    exact Nat.log_eq_of_pow_le_of_lt_pow (by norm_num) (by norm_num)
  refine ⟨h, ?_⟩
  rw [h]
  norm_num
